import Mathlib

/-!
# Verification of the sectoral-emissions decomposition and metrics engine

A shallow embedding of the core transformations of the pipeline
(`src/utils.py`, `src/sector_mapping.py`, `src/data_processing.py`,
`src/modeling.py`).  IEEE floats are idealized as real numbers; a
non-finite float (NaN or an infinity, pandas' missing sentinel) is
modelled as `none : Option ℝ`.  Tables are lists of records; pandas
joins, sorts and group-wise passes are modelled explicitly.
-/

namespace Emissions

/-! ## Safe arithmetic (`src/utils.py`, `safe_divide`)

`safe_divide(numerator, denominator, default=np.nan)` computes
`np.divide` and replaces every non-finite result by `default`.
Over exact reals a quotient with a nonzero denominator is always
finite, and a zero denominator (or a non-finite operand) always
yields a non-finite float, hence the default. -/

noncomputable def safe_divide (numerator denominator : Option ℝ)
    (default : Option ℝ) : Option ℝ :=
  match numerator, denominator with
  | some n, some d => if d = 0 then default else some (n / d)
  | _, _ => default

/-- Elementwise `safe_divide` over aligned sequences (the ndarray branch of
the source: `np.where(np.isfinite(result), result, default)`). -/
noncomputable def safe_divide_seq (numerators denominators : List (Option ℝ))
    (default : Option ℝ) : List (Option ℝ) :=
  List.zipWith (fun n d => safe_divide n d default) numerators denominators

/-! ## Generic table sorting

`DataFrame.sort_values` over one or two key columns, modelled as an
insertion sort by a lexicographic key.  Canonical sector names are
sorted by pandas as strings; `sectorRank` below lists them in that
lexicographic order. -/

def lexLE {α κ₁ κ₂ : Type} [LinearOrder κ₁] [LinearOrder κ₂]
    (k₁ : α → κ₁) (k₂ : α → κ₂) (a b : α) : Prop :=
  k₁ a < k₁ b ∨ (k₁ a = k₁ b ∧ k₂ a ≤ k₂ b)

instance lexLE.decidableRel {α κ₁ κ₂ : Type} [LinearOrder κ₁] [LinearOrder κ₂]
    (k₁ : α → κ₁) (k₂ : α → κ₂) : DecidableRel (lexLE k₁ k₂) := by
  intro a b
  unfold lexLE
  infer_instance

instance lexLE.isTotal {α κ₁ κ₂ : Type} [LinearOrder κ₁] [LinearOrder κ₂]
    (k₁ : α → κ₁) (k₂ : α → κ₂) : IsTotal α (lexLE k₁ k₂) := by
  constructor
  intro a b
  rcases lt_trichotomy (k₁ a) (k₁ b) with h | h | h
  · exact Or.inl (Or.inl h)
  · rcases le_total (k₂ a) (k₂ b) with h2 | h2
    · exact Or.inl (Or.inr ⟨h, h2⟩)
    · exact Or.inr (Or.inr ⟨h.symm, h2⟩)
  · exact Or.inr (Or.inl h)

instance lexLE.isTrans {α κ₁ κ₂ : Type} [LinearOrder κ₁] [LinearOrder κ₂]
    (k₁ : α → κ₁) (k₂ : α → κ₂) : IsTrans α (lexLE k₁ k₂) := by
  constructor
  intro a b c hab hbc
  rcases hab with h1 | ⟨h1, h1'⟩
  · rcases hbc with h2 | ⟨h2, _⟩
    · exact Or.inl (h1.trans h2)
    · exact Or.inl (h2 ▸ h1)
  · rcases hbc with h2 | ⟨h2, h2'⟩
    · exact Or.inl (h1 ▸ h2)
    · exact Or.inr ⟨h1.trans h2, h1'.trans h2'⟩

def sortTable {α κ₁ κ₂ : Type} [LinearOrder κ₁] [LinearOrder κ₂]
    (k₁ : α → κ₁) (k₂ : α → κ₂) (l : List α) : List α :=
  List.insertionSort (lexLE k₁ k₂) l

/-! ## Generic left join on the `year` column

`DataFrame.merge(..., on="year", how="left")` : every left row is kept;
each match in the right table produces one output row, and a left row
with no match is paired with a missing value. -/

def merge_left_year {α β : Type} (rows : List α) (year : α → ℤ)
    (tbl : List (ℤ × β)) : List (α × Option β) :=
  rows.flatMap (fun r =>
    match tbl.filter (fun p => p.1 = year r) with
    | [] => [(r, none)]
    | ms => ms.map (fun p => (r, some p.2)))

/-! ## Sector taxonomy (`src/sector_mapping.py`)

`SECTOR_MAPPING` maps the six raw columns to the canonical sector
names Coal, Oil, Gas, Cement, Flaring, Other industry.  A raw cell is
either missing (NaN), a number, or a value `pd.to_numeric` cannot
parse.  `sectorRank` records the lexicographic order of the canonical
names (Cement < Coal < Flaring < Gas < Oil < Other industry), which is
the order pandas uses when sorting the string-valued sector column. -/

inductive Sector : Type
  | coal
  | oil
  | gas
  | cement
  | flaring
  | otherIndustry
deriving DecidableEq, Repr

def sectorRank : Sector → ℕ
  | Sector.cement => 0
  | Sector.coal => 1
  | Sector.flaring => 2
  | Sector.gas => 3
  | Sector.oil => 4
  | Sector.otherIndustry => 5

inductive Cell : Type
  | null
  | num (x : ℝ)
  | nonNumeric

/-- One wide-format input row: a year plus the six raw sector columns
(`coal_co2`, `oil_co2`, `gas_co2`, `cement_co2`, `flaring_co2`,
`other_industry_co2`). -/
structure WideRow : Type where
  year : ℤ
  coal_co2 : Cell
  oil_co2 : Cell
  gas_co2 : Cell
  cement_co2 : Cell
  flaring_co2 : Cell
  other_industry_co2 : Cell

def sector_cell (w : WideRow) : Sector → Cell
  | Sector.coal => w.coal_co2
  | Sector.oil => w.oil_co2
  | Sector.gas => w.gas_co2
  | Sector.cement => w.cement_co2
  | Sector.flaring => w.flaring_co2
  | Sector.otherIndustry => w.other_industry_co2

/-- `pd.to_numeric(..., errors="coerce")`: a numeric value is kept, a
missing or unparsable value becomes NaN (it never raises). -/
def to_numeric_coerce : Cell → Option ℝ
  | Cell.num x => some x
  | _ => none

structure SectorRow : Type where
  year : ℤ
  sector : Sector
  emissions_mtco2 : ℝ

/-- `extract_sector_long`: melt the six sector columns into long
format (`melt` stacks one block per raw column, in `SECTOR_MAPPING`
order), coerce to numeric, drop the rows whose coerced value is NaN,
then sort by (year, sector). -/
def extract_sector_long (df_world : List WideRow) : List SectorRow :=
  let blocks : List Sector :=
    [Sector.coal, Sector.oil, Sector.gas, Sector.cement, Sector.flaring,
      Sector.otherIndustry]
  let melted : List (ℤ × Sector × Cell) :=
    blocks.flatMap (fun s => df_world.map (fun w => (w.year, s, sector_cell w s)))
  let coerced : List SectorRow :=
    melted.filterMap (fun t =>
      (to_numeric_coerce t.2.2).map (fun x => SectorRow.mk t.1 t.2.1 x))
  sortTable (fun r : SectorRow => r.year) (fun r => sectorRank r.sector) coerced

/-! ## Metrics engine (`src/data_processing.py`) -/

structure ShareRow : Type where
  year : ℤ
  sector : Sector
  share_of_total : Option ℝ

/-- `compute_sector_shares`: left-merge the per-year total (a series
whose float values may themselves be NaN, hence `Option ℝ`) onto the
long table, then `share = safe_divide(emissions, total)` with the NaN
default, selecting and sorting by (year, sector).  A sector-year with
no matching total gets a NaN total and therefore a NaN share: the
merge is a left join and raises nothing. -/
noncomputable def compute_sector_shares (sector_long : List SectorRow)
    (total_by_year : List (ℤ × Option ℝ)) : List ShareRow :=
  let merged := merge_left_year sector_long (fun r => r.year) total_by_year
  let shares := merged.map (fun rt =>
    ShareRow.mk rt.1.year rt.1.sector
      (safe_divide (some rt.1.emissions_mtco2) rt.2.join none))
  sortTable (fun r : ShareRow => r.year) (fun r => sectorRank r.sector) shares

structure YoyRow : Type where
  year : ℤ
  sector : Sector
  emissions_mtco2 : ℝ
  yoy_change_mtco2 : Option ℝ
  yoy_change_pct : Option ℝ

/-- One pass over the (sector, year)-sorted long table carrying the
previous row: `groupby("sector").diff()` (resp. `.shift(1)`) assigns to
each row the difference with (resp. the value of) the row immediately
above it when that row belongs to the same sector, and NaN otherwise
(first row of each group). -/
noncomputable def yoy_diff_pass (prev : Option SectorRow) :
    List SectorRow → List YoyRow
  | [] => []
  | r :: rs =>
    let d : Option ℝ :=
      match prev with
      | some p =>
        if p.sector = r.sector then some (r.emissions_mtco2 - p.emissions_mtco2)
        else none
      | none => none
    let pv : Option ℝ :=
      match prev with
      | some p => if p.sector = r.sector then some p.emissions_mtco2 else none
      | none => none
    YoyRow.mk r.year r.sector r.emissions_mtco2 d (safe_divide d pv none) ::
      yoy_diff_pass (some r) rs

/-- `compute_yoy_changes`: sort by (sector, year), compute the grouped
first difference and percentage change, and re-sort by (year, sector). -/
noncomputable def compute_yoy_changes (sector_long : List SectorRow) :
    List YoyRow :=
  let sorted := sortTable (fun r : SectorRow => sectorRank r.sector)
    (fun r => r.year) sector_long
  sortTable (fun r : YoyRow => r.year) (fun r => sectorRank r.sector)
    (yoy_diff_pass none sorted)

structure ContributionRow : Type where
  year : ℤ
  sector : Sector
  delta_mtco2 : Option ℝ
  contribution_share : Option ℝ

/-- `compute_contribution_to_total_change`: take (year, sector,
yoy_change_mtco2) from the sector YoY table, left-merge the total YoY
change by year (the total change is NaN on the first year, hence
`Option ℝ` values), and `contribution_share = safe_divide(delta_mtco2,
delta_total)` with the NaN default; sorted by (year, sector). -/
noncomputable def compute_contribution_to_total_change
    (sector_yoy : List YoyRow) (total_yoy : List (ℤ × Option ℝ)) :
    List ContributionRow :=
  let merged := merge_left_year sector_yoy (fun r => r.year) total_yoy
  let contrib := merged.map (fun rt =>
    ContributionRow.mk rt.1.year rt.1.sector rt.1.yoy_change_mtco2
      (safe_divide rt.1.yoy_change_mtco2 rt.2.join none))
  sortTable (fun r : ContributionRow => r.year) (fun r => sectorRank r.sector)
    contrib

/-! ## Smoothing (`src/modeling.py`, `smooth_timeseries`) -/

inductive SmoothError : Type
  | windowMustBeOdd

/-- `smooth_timeseries`: `window <= 1` returns a copy, an even window
raises ValueError, and otherwise
`series.rolling(window, center=True, min_periods=1).mean()` is taken:
for an odd window `w` the centered window at position `i` covers the
positions from `i - (w-1)/2` to `i + (w-1)/2`, clipped to the series,
and the mean is over the points actually available there. -/
noncomputable def smooth_timeseries (series : List ℝ) (window : ℤ) :
    Except SmoothError (List ℝ) :=
  if window ≤ 1 then Except.ok series
  else if window % 2 = 0 then Except.error SmoothError.windowMustBeOdd
  else
    let half : ℕ := (window.toNat - 1) / 2
    Except.ok ((List.range series.length).map (fun i =>
      let lo : ℕ := i - half
      let hi : ℕ := min (series.length - 1) (i + half)
      ((series.drop lo).take (hi + 1 - lo)).sum / ((hi + 1 - lo : ℕ) : ℝ)))

/-- Comparison definition following the spec's wording (§4.4, §8): the
arithmetic mean of the points of `s` available in the centered window
of half-width `half` around position `i` (the window shrinks at the
boundaries instead of padding with zeros or dropping points). -/
noncomputable def spec_centered_window_mean (s : List ℝ) (half i : ℕ) : ℝ :=
  ((Finset.Icc (i - half) (min (s.length - 1) (i + half))).sum
      (fun j => s.getD j 0)) /
    ((Finset.Icc (i - half) (min (s.length - 1) (i + half))).card : ℕ)

/-! ## LMDI decomposition engine (`src/modeling.py`) -/

/-- One row of the world table as consumed by `compute_kaya_lmdi`
(columns `year`, `co2`, `population`, `gdp`). -/
structure YearRow : Type where
  year : ℤ
  co2 : ℝ
  population : ℝ
  gdp : ℝ

/-- `df.loc[(df["year"] - y).abs().idxmin()]`: the first row (in table
order) whose year is at minimum absolute distance from the request;
`none` only on an empty table. -/
def closestRow (req : ℤ) : List YearRow → Option YearRow
  | [] => none
  | r :: rs =>
    match closestRow req rs with
    | none => some r
    | some m =>
      if (r.year - req).natAbs ≤ (m.year - req).natAbs then some r else some m

/-- `_log_mean_divisia_index` (the first two arguments are unused by
the source as well).  If the first degenerate branch is not taken,
`np.log` is applied to both totals: for a non-positive total the log
(and with it the returned weight, or else the intensity effect that
multiplies it) is not a finite number, which is modelled as `none`. -/
noncomputable def log_mean_divisia_index
    (value_start value_end co2_start co2_end : ℝ) : Option ℝ :=
  if |co2_end - co2_start| < 1e-9 then
    some (if co2_start = 0 then 1 else co2_start)
  else if 0 < co2_start ∧ 0 < co2_end then
    let ln_ratio := Real.log co2_end - Real.log co2_start
    if |ln_ratio| < 1e-9 then some (if co2_start = 0 then 1 else co2_start)
    else some ((co2_end - co2_start) / ln_ratio)
  else none

/-- `L * np.log(x_end / x_start) if x_start > 0 else np.nan`, on
possibly non-finite weight and factors: the product is finite exactly
when the weight is finite, both factors are finite, `x_start > 0` and
the ratio is positive (otherwise `np.log` is non-finite or NaN). -/
noncomputable def lmdi_effect (L x_start x_end : Option ℝ) : Option ℝ :=
  match L, x_start, x_end with
  | some l, some xs, some xe =>
    if 0 < xs then
      if 0 < xe / xs then some (l * Real.log (xe / xs)) else none
    else none
  | _, _, _ => none

/-- One LMDI period result.  The source labels the row with the string
`f"{actual_start_year}–{actual_end_year}"`; the two resolved years are
kept here. -/
structure PeriodResult : Type where
  period_start : ℤ
  period_end : ℤ
  effect_population : Option ℝ
  effect_affluence : Option ℝ
  effect_intensity : Option ℝ
  delta_co2 : ℝ

/-- The body of the loop of `compute_kaya_lmdi` for one requested
period, over the year-sorted table. -/
noncomputable def lmdi_period (df : List YearRow) (start_year end_year : ℤ) :
    Option PeriodResult :=
  match closestRow start_year df, closestRow end_year df with
  | some s, some e =>
    let a_start := safe_divide (some s.gdp) (some s.population) none
    let a_end := safe_divide (some e.gdp) (some e.population) none
    let i_start := safe_divide (some s.co2) (some s.gdp) none
    let i_end := safe_divide (some e.co2) (some e.gdp) none
    let L := log_mean_divisia_index s.population e.population s.co2 e.co2
    some (PeriodResult.mk s.year e.year
      (lmdi_effect L (some s.population) (some e.population))
      (lmdi_effect L a_start a_end)
      (lmdi_effect L i_start i_end)
      (e.co2 - s.co2))
  | _, _ => none

/-- `compute_kaya_lmdi`: sort the world table by year, then resolve and
decompose each requested period in request order. -/
noncomputable def compute_kaya_lmdi (world_df : List YearRow)
    (periods : List (ℤ × ℤ)) : List PeriodResult :=
  let df := sortTable (fun r : YearRow => r.year) (fun _ => (0 : ℕ)) world_df
  periods.filterMap (fun p => lmdi_period df p.1 p.2)

/-! ## Generic lemmas about the table operations -/

theorem sortTable_perm {α κ₁ κ₂ : Type} [LinearOrder κ₁] [LinearOrder κ₂]
    (k₁ : α → κ₁) (k₂ : α → κ₂) (l : List α) :
    List.Perm (sortTable k₁ k₂ l) l :=
  List.perm_insertionSort (lexLE k₁ k₂) l

theorem mem_sortTable {α κ₁ κ₂ : Type} [LinearOrder κ₁] [LinearOrder κ₂]
    (k₁ : α → κ₁) (k₂ : α → κ₂) (l : List α) (a : α) :
    a ∈ sortTable k₁ k₂ l ↔ a ∈ l :=
  (sortTable_perm k₁ k₂ l).mem_iff

theorem sortTable_pairwise {α κ₁ κ₂ : Type} [LinearOrder κ₁] [LinearOrder κ₂]
    (k₁ : α → κ₁) (k₂ : α → κ₂) (l : List α) :
    List.Pairwise (lexLE k₁ k₂) (sortTable k₁ k₂ l) :=
  List.sorted_insertionSort (lexLE k₁ k₂) l

theorem lexLE_year_iff (a b : YearRow) :
    lexLE (fun r : YearRow => r.year) (fun _ => (0 : ℕ)) a b ↔ a.year ≤ b.year := by
  simp only [lexLE]
  constructor
  · intro h
    omega
  · intro h
    omega

theorem closestRow_eq_none (req : ℤ) (l : List YearRow) :
    closestRow req l = none ↔ l = [] := by
  cases l with
  | nil => simp [closestRow]
  | cons a t =>
    simp only [closestRow]
    cases h : closestRow req t with
    | none => simp
    | some m =>
      constructor
      · intro hc
        by_cases hle : (a.year - req).natAbs ≤ (m.year - req).natAbs <;>
          simp [hle] at hc
      · intro hc
        exact absurd hc (List.cons_ne_nil a t)

theorem closestRow_spec (req : ℤ) (l : List YearRow) (hne : l ≠ []) :
    ∃ m, closestRow req l = some m ∧ m ∈ l ∧
      ∀ r ∈ l, (m.year - req).natAbs ≤ (r.year - req).natAbs := by
  induction l with
  | nil => exact absurd rfl hne
  | cons a t ih =>
    cases hct : closestRow req t with
    | none =>
      have ht : t = [] := (closestRow_eq_none req t).mp hct
      subst ht
      refine ⟨a, by simp [closestRow], List.mem_cons_self a [], ?_⟩
      intro r hr
      rcases List.mem_singleton.mp hr with rfl
      exact le_refl _
    | some m =>
      have ht : t ≠ [] := by
        intro h
        rw [(closestRow_eq_none req t).mpr h] at hct
        exact Option.noConfusion hct
      obtain ⟨m', hm', hmem, hmin⟩ := ih ht
      rw [hct] at hm'
      have hmm : m' = m := (Option.some.inj hm').symm
      subst hmm
      by_cases hle : (a.year - req).natAbs ≤ (m'.year - req).natAbs
      · refine ⟨a, ?_, List.mem_cons_self a t, ?_⟩
        · simp only [closestRow, hct, if_pos hle]
        · intro r hr
          rcases List.mem_cons.mp hr with rfl | hr
          · exact le_refl _
          · exact hle.trans (hmin r hr)
      · refine ⟨m', ?_, List.mem_cons_of_mem a hmem, ?_⟩
        · simp only [closestRow, hct, if_neg hle]
        · intro r hr
          rcases List.mem_cons.mp hr with rfl | hr
          · exact le_of_not_le hle
          · exact hmin r hr

/-- On a year-sorted table `idxmin` keeps the first minimizer, hence
the minimizer of least year. -/
theorem closestRow_tiebreak (req : ℤ) (l : List YearRow) :
    ∀ m : YearRow,
      List.Pairwise (lexLE (fun r : YearRow => r.year) (fun _ => (0 : ℕ))) l →
      closestRow req l = some m →
      ∀ r ∈ l, (r.year - req).natAbs = (m.year - req).natAbs →
        m.year ≤ r.year := by
  induction l with
  | nil =>
    intro m _ hm
    simp [closestRow] at hm
  | cons a t ih =>
    intro m hsort hm r hr hdist
    rw [List.pairwise_cons] at hsort
    obtain ⟨ha, hsort'⟩ := hsort
    cases hct : closestRow req t with
    | none =>
      have ht : t = [] := (closestRow_eq_none req t).mp hct
      subst ht
      simp only [closestRow] at hm
      injection hm with hm
      subst hm
      rcases List.mem_singleton.mp hr with rfl
      exact le_refl _
    | some m' =>
      simp only [closestRow, hct] at hm
      by_cases hle : (a.year - req).natAbs ≤ (m'.year - req).natAbs
      · rw [if_pos hle] at hm
        injection hm with hm
        subst hm
        rcases List.mem_cons.mp hr with rfl | hr
        · exact le_refl _
        · exact (lexLE_year_iff _ r).mp (ha r hr)
      · rw [if_neg hle] at hm
        injection hm with hm
        subst hm
        rcases List.mem_cons.mp hr with rfl | hr2
        · exact absurd (le_of_eq hdist) hle
        · exact ih _ hsort' hct r hr2 hdist

theorem zipWith_getElem? {α β γ : Type} (f : α → β → γ) :
    ∀ (l1 : List α) (l2 : List β) (i : ℕ)
      (h1 : i < l1.length) (h2 : i < l2.length),
      (List.zipWith f l1 l2)[i]? = some (f (l1.get ⟨i, h1⟩) (l2.get ⟨i, h2⟩))
  | [], _, i, h1, _ => by simp at h1
  | _ :: _, [], i, _, h2 => by simp at h2
  | a :: t1, b :: t2, 0, _, _ => by simp
  | a :: t1, b :: t2, i + 1, h1, h2 => by
    simp only [List.zipWith_cons_cons, List.getElem?_cons_succ, List.get]
    exact zipWith_getElem? f t1 t2 i (Nat.lt_of_succ_lt_succ h1)
      (Nat.lt_of_succ_lt_succ h2)

/-! ## Claims -/

/-- C3: for all numerators, denominators and caller defaults,
`safe_divide(n, 0, default) = default`, `safe_divide(n, d, default) =
n / d` whenever `d ≠ 0` (over the reals the quotient is then always
finite), `safe_divide(0, 0, default) = default`, and the same holds
elementwise when the inputs are aligned sequences. -/
theorem C3_safe_divide (n d : ℝ) (default : Option ℝ) (hd : d ≠ 0)
    (ns ds : List (Option ℝ)) (i : ℕ)
    (h1 : i < ns.length) (h2 : i < ds.length) :
    safe_divide (some n) (some 0) default = default ∧
    safe_divide (some n) (some d) default = some (n / d) ∧
    safe_divide (some 0) (some 0) default = default ∧
    (safe_divide_seq ns ds default)[i]? =
      some (safe_divide (ns.get ⟨i, h1⟩) (ds.get ⟨i, h2⟩) default) := by
  refine ⟨by simp [safe_divide], by simp [safe_divide, hd], by simp [safe_divide], ?_⟩
  exact zipWith_getElem? (fun a b => safe_divide a b default) ns ds i h1 h2

theorem C3_safe_divide_witness :
    safe_divide (some 6) (some 0) none = none ∧
    safe_divide (some 6) (some 3) none = some (6 / 3) ∧
    safe_divide (some 0) (some 0) none = none ∧
    (safe_divide_seq [some 4] [some 2] none)[0]? =
      some (safe_divide (some 4) (some 2) none) :=
  C3_safe_divide 6 3 none (by norm_num) [some 4] [some 2] 0
    (by norm_num) (by norm_num)

/-- C2: for totals `cs, ce > 0`, if `|ce - cs| < 1e-9` or
`|ln ce - ln cs| < 1e-9` the LMDI weight is `cs` (and `1` when the
start total is `0`, reachable through the first branch), and otherwise
it is `(ce - cs) / (ln ce - ln cs)`; in particular with both totals
equal to `1000` the weight is `1000`, a finite value. -/
theorem C2_lmdi_weight (vs ve cs ce ce0 : ℝ) (hs : 0 < cs) (he : 0 < ce)
    (h0 : |ce0 - 0| < 1e-9) :
    (|ce - cs| < 1e-9 → log_mean_divisia_index vs ve cs ce = some cs) ∧
    (|Real.log ce - Real.log cs| < 1e-9 →
      log_mean_divisia_index vs ve cs ce = some cs) ∧
    (¬ |ce - cs| < 1e-9 → ¬ |Real.log ce - Real.log cs| < 1e-9 →
      log_mean_divisia_index vs ve cs ce =
        some ((ce - cs) / (Real.log ce - Real.log cs))) ∧
    log_mean_divisia_index vs ve 0 ce0 = some 1 ∧
    log_mean_divisia_index vs ve 1000 1000 = some 1000 := by
  refine ⟨?_, ?_, ?_, ?_, ?_⟩
  · intro h
    simp [log_mean_divisia_index, h, hs.ne.symm]
  · intro h
    by_cases hd : |ce - cs| < 1e-9
    · simp [log_mean_divisia_index, hd, hs.ne.symm]
    · simp [log_mean_divisia_index, hd, hs, he, h, hs.ne.symm]
  · intro hd h
    simp [log_mean_divisia_index, hd, hs, he, h]
  · simp only [sub_zero] at h0
    simp [log_mean_divisia_index, h0]
  · norm_num [log_mean_divisia_index]

theorem pos_of_div_pos {a b : ℝ} (hb : 0 < b) (h : 0 < a / b) : 0 < a := by
  rcases div_pos_iff.mp h with ⟨h1, _⟩ | ⟨_, h2⟩
  · exact h1
  · linarith

/-- Quantitative first-order bound behind the degenerate LMDI branch:
when `|ln r| < 1e-9`, scaling `ln r` by `c` differs from scaling
`r - 1` by `c` by at most one part in `10⁶` of the latter. -/
theorem log_close_linear (c r : ℝ) (hc : 0 < c) (hr : 0 < r)
    (hlr : |Real.log r| < 1e-9) :
    |c * Real.log r - c * (r - 1)| ≤ 1e-6 * |c * (r - 1)| := by
  have hub : Real.log r ≤ r - 1 := Real.log_le_sub_one_of_pos hr
  have hlb : 1 - r⁻¹ ≤ Real.log r := by
    have h := Real.log_le_sub_one_of_pos (inv_pos.mpr hr)
    rw [Real.log_inv] at h
    linarith
  have habs := abs_lt.mp hlr
  have h1 : |r - 1| ≤ 1e-6 * r := by
    rcases le_or_lt 1 r with h | h
    · rw [abs_of_nonneg (by linarith)]
      have h2 : r * (1 - r⁻¹) ≤ r * Real.log r :=
        mul_le_mul_of_nonneg_left hlb (le_of_lt hr)
      have hrr : r * (1 - r⁻¹) = r - 1 := by field_simp
      nlinarith [habs.2, hr]
    · rw [abs_of_neg (by linarith)]
      have h2 : 1 - r ≤ -Real.log r := by linarith
      have h3 : 1 - r < 1e-9 := by linarith [habs.1]
      nlinarith
  have h4 : |Real.log r - (r - 1)| ≤ 1e-6 * |r - 1| := by
    rw [abs_of_nonpos (by linarith)]
    have h5 : (r - 1) - Real.log r ≤ (r - 1) - (1 - r⁻¹) := by linarith
    have h6 : (r - 1) - (1 - r⁻¹) = (r - 1) ^ 2 / r := by
      field_simp
      ring
    have h7 : (r - 1) ^ 2 / r ≤ 1e-6 * |r - 1| := by
      rw [div_le_iff₀ hr]
      nlinarith [sq_abs (r - 1), h1, abs_nonneg (r - 1)]
    linarith
  have hc4 : c * |Real.log r - (r - 1)| ≤ c * (1e-6 * |r - 1|) :=
    mul_le_mul_of_nonneg_left h4 (le_of_lt hc)
  calc |c * Real.log r - c * (r - 1)| = c * |Real.log r - (r - 1)| := by
        rw [← mul_sub, abs_mul, abs_of_pos hc]
    _ ≤ c * (1e-6 * |r - 1|) := hc4
    _ = 1e-6 * |c * (r - 1)| := by
        rw [abs_mul, abs_of_pos hc]
        ring

theorem lmdi_period_eq_some (df : List YearRow) (sy ey : ℤ) (s e : YearRow)
    (hcs : closestRow sy df = some s) (hce : closestRow ey df = some e) :
    lmdi_period df sy ey = some (PeriodResult.mk s.year e.year
      (lmdi_effect (log_mean_divisia_index s.population e.population s.co2 e.co2)
        (some s.population) (some e.population))
      (lmdi_effect (log_mean_divisia_index s.population e.population s.co2 e.co2)
        (safe_divide (some s.gdp) (some s.population) none)
        (safe_divide (some e.gdp) (some e.population) none))
      (lmdi_effect (log_mean_divisia_index s.population e.population s.co2 e.co2)
        (safe_divide (some s.co2) (some s.gdp) none)
        (safe_divide (some e.co2) (some e.gdp) none))
      (e.co2 - s.co2)) := by
  unfold lmdi_period
  rw [hcs, hce]

theorem lmdi_period_isSome (df : List YearRow) (sy ey : ℤ) (res : PeriodResult)
    (h : lmdi_period df sy ey = some res) :
    ∃ s e, closestRow sy df = some s ∧ closestRow ey df = some e := by
  cases hcs : closestRow sy df with
  | none =>
    unfold lmdi_period at h
    rw [hcs] at h
    cases hce : closestRow ey df <;> rw [hce] at h <;> exact Option.noConfusion h
  | some s =>
    cases hce : closestRow ey df with
    | none =>
      unfold lmdi_period at h
      rw [hcs, hce] at h
      exact Option.noConfusion h
    | some e => exact ⟨s, e, rfl, rfl⟩

/-- C1 (amended): for every period result of `compute_kaya_lmdi` in
which all three effects are finite and the total CO₂ change is at
least the degeneracy threshold `1e-9` in magnitude, the sum of the
three effects equals `delta_co2` to within `1e-6` relative tolerance
(and exactly so whenever the log-mean formula branch is taken). -/
theorem C1_lmdi_additivity_amended (rows : List YearRow)
    (periods : List (ℤ × ℤ)) (res : PeriodResult)
    (hres : res ∈ compute_kaya_lmdi rows periods)
    (ep ea ei : ℝ)
    (hp : res.effect_population = some ep)
    (ha : res.effect_affluence = some ea)
    (hi : res.effect_intensity = some ei)
    (hnd : 1e-9 ≤ |res.delta_co2|) :
    |ep + ea + ei - res.delta_co2| ≤ 1e-6 * |res.delta_co2| := by
  have hres' : res ∈ periods.filterMap (fun p =>
      lmdi_period (sortTable (fun r : YearRow => r.year) (fun _ => (0 : ℕ)) rows)
        p.1 p.2) := hres
  obtain ⟨p, hpmem, hper⟩ := List.mem_filterMap.mp hres'
  set df := sortTable (fun r : YearRow => r.year) (fun _ => (0 : ℕ)) rows with hdf
  obtain ⟨s, e, hcs, hce⟩ := lmdi_period_isSome df p.1 p.2 res hper
  rw [lmdi_period_eq_some df p.1 p.2 s e hcs hce] at hper
  have hres_eq := (Option.some.inj hper).symm
  subst hres_eq
  dsimp only at hp ha hi hnd ⊢
  -- Weight is finite
  cases hL : log_mean_divisia_index s.population e.population s.co2 e.co2 with
  | none =>
    rw [hL] at hp
    exact Option.noConfusion hp
  | some l =>
    rw [hL] at hp ha hi
    -- Population effect
    simp only [lmdi_effect] at hp
    split_ifs at hp with hps hpr
    have hep := Option.some.inj hp
    -- Affluence effect
    have hspne : s.population ≠ 0 := ne_of_gt hps
    have hpe : 0 < e.population := pos_of_div_pos hps hpr
    have hepne : e.population ≠ 0 := ne_of_gt hpe
    simp only [lmdi_effect, safe_divide, if_neg hspne, if_neg hepne] at ha
    split_ifs at ha with has har
    have hea := Option.some.inj ha
    -- Intensity effect
    have hsg : 0 < s.gdp := pos_of_div_pos hps has
    have hae : 0 < e.gdp / e.population := pos_of_div_pos has har
    have heg : 0 < e.gdp := pos_of_div_pos hpe hae
    have hsgne : s.gdp ≠ 0 := ne_of_gt hsg
    have hegne : e.gdp ≠ 0 := ne_of_gt heg
    simp only [lmdi_effect, safe_divide, if_neg hsgne, if_neg hegne] at hi
    split_ifs at hi with his hir
    have hei := Option.some.inj hi
    -- CO₂ totals are positive
    have hsc : 0 < s.co2 := pos_of_div_pos hsg his
    have hie : 0 < e.co2 / e.gdp := pos_of_div_pos his hir
    have hec : 0 < e.co2 := pos_of_div_pos heg hie
    have hscne : s.co2 ≠ 0 := ne_of_gt hsc
    have hecne : e.co2 ≠ 0 := ne_of_gt hec
    -- The weight
    have hnd1 : ¬ |e.co2 - s.co2| < 1e-9 := not_lt.mpr hnd
    rw [log_mean_divisia_index, if_neg hnd1, if_pos ⟨hsc, hec⟩] at hL
    -- The sum of the three effects is l * ln(co2_end / co2_start)
    have hsum : ep + ea + ei = l * Real.log (e.co2 / s.co2) := by
      rw [← hep, ← hea, ← hei, ← mul_add, ← mul_add]
      congr 1
      rw [← Real.log_mul (ne_of_gt hpr) (ne_of_gt har),
        ← Real.log_mul (mul_ne_zero (ne_of_gt hpr) (ne_of_gt har)) (ne_of_gt hir)]
      congr 1
      field_simp
      ring
    have hlogdiv : Real.log (e.co2 / s.co2) = Real.log e.co2 - Real.log s.co2 :=
      Real.log_div hecne hscne
    by_cases hdeg : |Real.log e.co2 - Real.log s.co2| < 1e-9
    · -- Degenerate branch: the weight is the start total
      rw [if_pos hdeg] at hL
      have hl : l = s.co2 := by
        have h := Option.some.inj hL
        simp only [if_neg hscne] at h
        exact h.symm
      subst hl
      have hkey := log_close_linear s.co2 (e.co2 / s.co2) hsc
        (div_pos hec hsc) (by rw [hlogdiv]; exact hdeg)
      have hdelta : s.co2 * (e.co2 / s.co2 - 1) = e.co2 - s.co2 := by
        field_simp
      rw [hsum, ← hdelta]
      exact hkey
    · -- Log-mean branch: the decomposition is exact
      rw [if_neg hdeg] at hL
      have hl : l = (e.co2 - s.co2) / (Real.log e.co2 - Real.log s.co2) :=
        (Option.some.inj hL).symm
      have hlrne : Real.log e.co2 - Real.log s.co2 ≠ 0 := by
        intro h
        rw [h] at hdeg
        norm_num at hdeg
      rw [hsum, hl, hlogdiv, div_mul_cancel₀ _ hlrne, sub_self, abs_zero]
      positivity

theorem C2_lmdi_weight_witness :
    (|(1000 : ℝ) - 1000| < 1e-9 →
      log_mean_divisia_index 0 0 (1000 : ℝ) 1000 = some 1000) ∧
    (|Real.log (1000 : ℝ) - Real.log 1000| < 1e-9 →
      log_mean_divisia_index 0 0 (1000 : ℝ) 1000 = some 1000) ∧
    (¬ |(1000 : ℝ) - 1000| < 1e-9 →
      ¬ |Real.log (1000 : ℝ) - Real.log 1000| < 1e-9 →
      log_mean_divisia_index 0 0 (1000 : ℝ) 1000 =
        some ((1000 - 1000) / (Real.log 1000 - Real.log 1000))) ∧
    log_mean_divisia_index 0 0 0 0 = some 1 ∧
    log_mean_divisia_index 0 0 1000 1000 = some 1000 :=
  C2_lmdi_weight 0 0 1000 1000 0 (by norm_num) (by norm_num) (by norm_num)

/-- C1 (counterexample): on the two-year table with totals `1e-10`
and `2e-10` (constant population and GDP equal to `1`), the requested
period (2000, 2001) falls into the degenerate weight branch
(`|Δ| < 1e-9`), all three effects are finite (`0`, `0`, and
`1e-10·ln 2`), yet their sum misses `delta_co2 = 1e-10` by a factor of
about `0.31`, far beyond the claimed `1e-6` relative tolerance. -/
theorem C1_lmdi_additivity_counterexample :
    PeriodResult.mk 2000 2001 (some 0) (some 0)
        (some ((1e-10 : ℝ) * Real.log 2)) (1e-10) ∈
      compute_kaya_lmdi [⟨2000, 1e-10, 1, 1⟩, ⟨2001, 2e-10, 1, 1⟩]
        [(2000, 2001)] ∧
    ¬ |(0 : ℝ) + 0 + (1e-10 : ℝ) * Real.log 2 - (1e-10 : ℝ)| ≤
        1e-6 * |(1e-10 : ℝ)| := by
  constructor
  · have hsort : sortTable (fun r : YearRow => r.year) (fun _ => (0 : ℕ))
        [(⟨2000, 1e-10, 1, 1⟩ : YearRow), ⟨2001, 2e-10, 1, 1⟩] =
        [⟨2000, 1e-10, 1, 1⟩, ⟨2001, 2e-10, 1, 1⟩] := by
      norm_num [sortTable, List.insertionSort, List.orderedInsert, lexLE]
    have h1 : closestRow 2000 [(⟨2000, 1e-10, 1, 1⟩ : YearRow), ⟨2001, 2e-10, 1, 1⟩] =
        some ⟨2000, 1e-10, 1, 1⟩ := by
      norm_num [closestRow]
    have h2 : closestRow 2001 [(⟨2000, 1e-10, 1, 1⟩ : YearRow), ⟨2001, 2e-10, 1, 1⟩] =
        some ⟨2001, 2e-10, 1, 1⟩ := by
      norm_num [closestRow]
    have hper := lmdi_period_eq_some _ 2000 2001 _ _ h1 h2
    dsimp only at hper
    have hL : log_mean_divisia_index (1 : ℝ) (1 : ℝ) (1e-10 : ℝ) (2e-10 : ℝ) =
        some (1e-10 : ℝ) := by
      unfold log_mean_divisia_index
      rw [if_pos (by rw [abs_sub_lt_iff]; norm_num : |(2e-10 : ℝ) - 1e-10| < 1e-9),
        if_neg (by norm_num : ¬ (1e-10 : ℝ) = 0)]
    rw [hL] at hper
    have hres : lmdi_period
        (sortTable (fun r : YearRow => r.year) (fun _ => (0 : ℕ))
          [(⟨2000, 1e-10, 1, 1⟩ : YearRow), ⟨2001, 2e-10, 1, 1⟩]) 2000 2001 =
        some (PeriodResult.mk 2000 2001 (some 0) (some 0)
          (some ((1e-10 : ℝ) * Real.log 2)) (1e-10)) := by
      rw [hsort, hper]
      norm_num [lmdi_effect, safe_divide, PeriodResult.mk.injEq, Real.log_one]
    show _ ∈ List.filterMap
      (fun p => lmdi_period (sortTable (fun r : YearRow => r.year)
        (fun _ => (0 : ℕ)) [⟨2000, 1e-10, 1, 1⟩, ⟨2001, 2e-10, 1, 1⟩]) p.1 p.2)
      [(2000, 2001)]
    rw [List.filterMap_cons, hres]
    exact List.mem_cons_self _ _
  · intro h
    have hlog2 : Real.log 2 < 0.6931471808 := Real.log_two_lt_d9
    have hpos : (0 : ℝ) < Real.log 2 := Real.log_pos (by norm_num)
    rw [abs_of_nonpos (by nlinarith), abs_of_pos (by norm_num : (0:ℝ) < 1e-10)] at h
    nlinarith

theorem C1_lmdi_additivity_amended_witness :
    PeriodResult.mk 2000 2001 (some 0) (some 2) (some 0) 2 ∈
      compute_kaya_lmdi [⟨2000, 1, 1, 1⟩, ⟨2001, 3, 1, 3⟩] [(2000, 2001)] ∧
    |(0 : ℝ) + 2 + 0 - (PeriodResult.mk 2000 2001 (some 0) (some 2)
        (some 0) (2 : ℝ)).delta_co2| ≤
      1e-6 * |(PeriodResult.mk 2000 2001 (some 0) (some 2)
        (some 0) (2 : ℝ)).delta_co2| := by
  have hlog3 : (1 : ℝ) < Real.log 3 := by
    rw [show (1 : ℝ) = Real.log (Real.exp 1) by rw [Real.log_exp]]
    exact Real.log_lt_log (Real.exp_pos 1)
      (lt_trans Real.exp_one_lt_d9 (by norm_num))
  have hlogne : Real.log (3 : ℝ) ≠ 0 := by positivity
  have hmem : PeriodResult.mk 2000 2001 (some 0) (some 2) (some 0) 2 ∈
      compute_kaya_lmdi [(⟨2000, 1, 1, 1⟩ : YearRow), ⟨2001, 3, 1, 3⟩]
        [(2000, 2001)] := by
    have hsort : sortTable (fun r : YearRow => r.year) (fun _ => (0 : ℕ))
        [(⟨2000, 1, 1, 1⟩ : YearRow), ⟨2001, 3, 1, 3⟩] =
        [⟨2000, 1, 1, 1⟩, ⟨2001, 3, 1, 3⟩] := by
      norm_num [sortTable, List.insertionSort, List.orderedInsert, lexLE]
    have h1 : closestRow 2000 [(⟨2000, 1, 1, 1⟩ : YearRow), ⟨2001, 3, 1, 3⟩] =
        some ⟨2000, 1, 1, 1⟩ := by
      norm_num [closestRow]
    have h2 : closestRow 2001 [(⟨2000, 1, 1, 1⟩ : YearRow), ⟨2001, 3, 1, 3⟩] =
        some ⟨2001, 3, 1, 3⟩ := by
      norm_num [closestRow]
    have hper := lmdi_period_eq_some _ 2000 2001 _ _ h1 h2
    dsimp only at hper
    have hL : log_mean_divisia_index (1 : ℝ) (1 : ℝ) (1 : ℝ) (3 : ℝ) =
        some ((2 : ℝ) / Real.log 3) := by
      unfold log_mean_divisia_index
      rw [if_neg (by rw [abs_sub_lt_iff]; norm_num : ¬ |(3 : ℝ) - 1| < 1e-9),
        if_pos (⟨by norm_num, by norm_num⟩ : (0 : ℝ) < 1 ∧ (0 : ℝ) < 3)]
      have hgt : ¬ |Real.log (3 : ℝ) - Real.log 1| < 1e-9 := by
        rw [Real.log_one, sub_zero,
          abs_of_pos (Real.log_pos (by norm_num))]
        push_neg
        linarith
      rw [if_neg hgt, Real.log_one, sub_zero]
      norm_num
    rw [hL] at hper
    have hres : lmdi_period
        (sortTable (fun r : YearRow => r.year) (fun _ => (0 : ℕ))
          [(⟨2000, 1, 1, 1⟩ : YearRow), ⟨2001, 3, 1, 3⟩]) 2000 2001 =
        some (PeriodResult.mk 2000 2001 (some 0) (some 2) (some 0) 2) := by
      rw [hsort, hper]
      norm_num [lmdi_effect, safe_divide, PeriodResult.mk.injEq, Real.log_one]
    show _ ∈ List.filterMap
      (fun p => lmdi_period (sortTable (fun r : YearRow => r.year)
        (fun _ => (0 : ℕ)) [⟨2000, 1, 1, 1⟩, ⟨2001, 3, 1, 3⟩]) p.1 p.2)
      [(2000, 2001)]
    rw [List.filterMap_cons, hres]
    exact List.mem_cons_self _ _
  exact ⟨hmem, C1_lmdi_additivity_amended _ _ _ hmem 0 2 0 rfl rfl rfl
    (by norm_num)⟩

theorem sortTable_ne_nil {α κ₁ κ₂ : Type} [LinearOrder κ₁] [LinearOrder κ₂]
    (k₁ : α → κ₁) (k₂ : α → κ₂) (l : List α) (hne : l ≠ []) :
    sortTable k₁ k₂ l ≠ [] := by
  intro h
  apply hne
  have hp := sortTable_perm k₁ k₂ l
  rw [h] at hp
  exact (hp.symm).eq_nil

/-- C7: for every requested period present in the request list and any
nonempty world table, `compute_kaya_lmdi` produces a (non-error) result
whose two resolved boundary years are available years at minimum
absolute distance from the requested ones. -/
theorem C7_nearest_year_fallback (rows : List YearRow)
    (periods : List (ℤ × ℤ)) (s e : ℤ)
    (hne : rows ≠ []) (hmem : (s, e) ∈ periods) :
    ∃ res ∈ compute_kaya_lmdi rows periods,
      ((∃ r ∈ rows, r.year = res.period_start) ∧
        ∀ r ∈ rows, (res.period_start - s).natAbs ≤ (r.year - s).natAbs) ∧
      ((∃ r ∈ rows, r.year = res.period_end) ∧
        ∀ r ∈ rows, (res.period_end - e).natAbs ≤ (r.year - e).natAbs) := by
  set df := sortTable (fun r : YearRow => r.year) (fun _ => (0 : ℕ)) rows with hdf
  have hdfne : df ≠ [] :=
    sortTable_ne_nil (fun r : YearRow => r.year) (fun _ => (0 : ℕ)) rows hne
  obtain ⟨ms, hms, hmsmem, hmsmin⟩ := closestRow_spec s df hdfne
  obtain ⟨me, hme, hmemem, hmemin⟩ := closestRow_spec e df hdfne
  have hper := lmdi_period_eq_some df s e ms me hms hme
  refine ⟨_, List.mem_filterMap.mpr ⟨(s, e), hmem, hper⟩, ⟨?_, ?_⟩, ⟨?_, ?_⟩⟩
  · exact ⟨ms,
      (mem_sortTable (fun r : YearRow => r.year) (fun _ => (0 : ℕ)) rows ms).mp
        hmsmem, rfl⟩
  · intro r hr
    exact hmsmin r
      ((mem_sortTable (fun r : YearRow => r.year) (fun _ => (0 : ℕ)) rows r).mpr hr)
  · exact ⟨me,
      (mem_sortTable (fun r : YearRow => r.year) (fun _ => (0 : ℕ)) rows me).mp
        hmemem, rfl⟩
  · intro r hr
    exact hmemin r
      ((mem_sortTable (fun r : YearRow => r.year) (fun _ => (0 : ℕ)) rows r).mpr hr)

theorem C7_nearest_year_fallback_witness :
    ∃ res ∈ compute_kaya_lmdi
        [⟨1850, 100, 10, 20⟩, ⟨2019, 200, 20, 40⟩, ⟨2022, 210, 21, 42⟩]
        [(1750, 2019)],
      ((∃ r ∈ [(⟨1850, 100, 10, 20⟩ : YearRow), ⟨2019, 200, 20, 40⟩,
            ⟨2022, 210, 21, 42⟩], r.year = res.period_start) ∧
        ∀ r ∈ [(⟨1850, 100, 10, 20⟩ : YearRow), ⟨2019, 200, 20, 40⟩,
            ⟨2022, 210, 21, 42⟩],
          (res.period_start - 1750).natAbs ≤ (r.year - 1750).natAbs) ∧
      ((∃ r ∈ [(⟨1850, 100, 10, 20⟩ : YearRow), ⟨2019, 200, 20, 40⟩,
            ⟨2022, 210, 21, 42⟩], r.year = res.period_end) ∧
        ∀ r ∈ [(⟨1850, 100, 10, 20⟩ : YearRow), ⟨2019, 200, 20, 40⟩,
            ⟨2022, 210, 21, 42⟩],
          (res.period_end - 2019).natAbs ≤ (r.year - 2019).natAbs) :=
  C7_nearest_year_fallback
    [⟨1850, 100, 10, 20⟩, ⟨2019, 200, 20, 40⟩, ⟨2022, 210, 21, 42⟩]
    [(1750, 2019)] 1750 2019 (by simp) (by simp)

/-- C10: when two available years are equidistant from a requested
boundary, the resolved year is the earlier one: the table is sorted
ascending by year and the minimum-distance lookup keeps the first
occurrence of the minimum, so the resolved boundary year is minimal
among all equidistant candidates. -/
theorem C10_nearest_year_tiebreak (rows : List YearRow)
    (periods : List (ℤ × ℤ)) (s e : ℤ)
    (hne : rows ≠ []) (hmem : (s, e) ∈ periods) :
    ∃ res ∈ compute_kaya_lmdi rows periods,
      (∀ r ∈ rows, (r.year - s).natAbs = (res.period_start - s).natAbs →
        res.period_start ≤ r.year) ∧
      (∀ r ∈ rows, (r.year - e).natAbs = (res.period_end - e).natAbs →
        res.period_end ≤ r.year) := by
  set df := sortTable (fun r : YearRow => r.year) (fun _ => (0 : ℕ)) rows with hdf
  have hdfne : df ≠ [] :=
    sortTable_ne_nil (fun r : YearRow => r.year) (fun _ => (0 : ℕ)) rows hne
  have hsorted := sortTable_pairwise (fun r : YearRow => r.year)
    (fun _ => (0 : ℕ)) rows
  obtain ⟨ms, hms, hmsmem, hmsmin⟩ := closestRow_spec s df hdfne
  obtain ⟨me, hme, hmemem, hmemin⟩ := closestRow_spec e df hdfne
  have hper := lmdi_period_eq_some df s e ms me hms hme
  refine ⟨_, List.mem_filterMap.mpr ⟨(s, e), hmem, hper⟩, ?_, ?_⟩
  · intro r hr hdist
    exact closestRow_tiebreak s df ms hsorted hms r
      ((mem_sortTable (fun r : YearRow => r.year) (fun _ => (0 : ℕ)) rows r).mpr hr)
      hdist
  · intro r hr hdist
    exact closestRow_tiebreak e df me hsorted hme r
      ((mem_sortTable (fun r : YearRow => r.year) (fun _ => (0 : ℕ)) rows r).mpr hr)
      hdist

theorem C10_nearest_year_tiebreak_witness :
    ∃ res ∈ compute_kaya_lmdi [⟨2000, 1, 1, 1⟩, ⟨2010, 2, 2, 2⟩]
        [(2005, 2010)],
      (∀ r ∈ [(⟨2000, 1, 1, 1⟩ : YearRow), ⟨2010, 2, 2, 2⟩],
        (r.year - 2005).natAbs = (res.period_start - 2005).natAbs →
          res.period_start ≤ r.year) ∧
      (∀ r ∈ [(⟨2000, 1, 1, 1⟩ : YearRow), ⟨2010, 2, 2, 2⟩],
        (r.year - 2010).natAbs = (res.period_end - 2010).natAbs →
          res.period_end ≤ r.year) :=
  C10_nearest_year_tiebreak [⟨2000, 1, 1, 1⟩, ⟨2010, 2, 2, 2⟩]
    [(2005, 2010)] 2005 2010 (by simp) (by simp)

theorem merge_left_year_mem {α β : Type} (rows : List α) (year : α → ℤ)
    (tbl : List (ℤ × β)) (rt : α × Option β)
    (h : rt ∈ merge_left_year rows year tbl) :
    rt.1 ∈ rows ∧
      ((rt.2 = none ∧ ∀ p ∈ tbl, p.1 ≠ year rt.1) ∨
        ∃ p ∈ tbl, p.1 = year rt.1 ∧ rt.2 = some p.2) := by
  unfold merge_left_year at h
  rw [List.mem_flatMap] at h
  obtain ⟨a, ha, hrt⟩ := h
  cases hf : tbl.filter (fun p => p.1 = year a) with
  | nil =>
    rw [hf] at hrt
    rcases List.mem_singleton.mp hrt with rfl
    refine ⟨ha, Or.inl ⟨rfl, ?_⟩⟩
    intro p hp hpy
    have : p ∈ tbl.filter (fun p => p.1 = year a) :=
      List.mem_filter.mpr ⟨hp, by simpa using hpy⟩
    rw [hf] at this
    exact List.not_mem_nil p this
  | cons q qs =>
    rw [hf] at hrt
    rw [List.mem_map] at hrt
    obtain ⟨p, hp, rfl⟩ := hrt
    have hp' : p ∈ tbl.filter (fun p => p.1 = year a) := by
      rw [hf]
      exact hp
    rw [List.mem_filter] at hp'
    exact ⟨ha, Or.inr ⟨p, hp'.1, by simpa using hp'.2, rfl⟩⟩

theorem to_numeric_coerce_eq_some (c : Cell) (x : ℝ) :
    to_numeric_coerce c = some x ↔ c = Cell.num x := by
  cases c <;> simp [to_numeric_coerce]

theorem sector_mem_blocks (s : Sector) :
    s ∈ [Sector.coal, Sector.oil, Sector.gas, Sector.cement, Sector.flaring,
      Sector.otherIndustry] := by
  cases s <;> simp

/-- C4 (amended): `extract_sector_long` raises no error at all: a
record appears for exactly the (year, sector) pairs whose raw cell
holds a numeric value; missing cells and non-numeric cells alike are
coerced to missing by `pd.to_numeric(errors="coerce")` and their
records are simply omitted. -/
theorem C4_extract_sector_long_amended (df_world : List WideRow) (r : SectorRow) :
    r ∈ extract_sector_long df_world ↔
      ∃ w ∈ df_world, w.year = r.year ∧
        sector_cell w r.sector = Cell.num r.emissions_mtco2 := by
  unfold extract_sector_long
  rw [mem_sortTable]
  rw [List.mem_filterMap]
  constructor
  · rintro ⟨t, ht, hf⟩
    rw [List.mem_flatMap] at ht
    obtain ⟨sct, hsct, hw⟩ := ht
    rw [List.mem_map] at hw
    obtain ⟨w, hw, rfl⟩ := hw
    rw [Option.map_eq_some'] at hf
    obtain ⟨x, hx, hg⟩ := hf
    rw [to_numeric_coerce_eq_some] at hx
    subst hg
    exact ⟨w, hw, rfl, hx⟩
  · rintro ⟨w, hw, hy, hc⟩
    refine ⟨(w.year, r.sector, sector_cell w r.sector),
      List.mem_flatMap.mpr ⟨r.sector, sector_mem_blocks r.sector,
        List.mem_map.mpr ⟨w, hw, rfl⟩⟩, ?_⟩
    rw [hc]
    simp only [to_numeric_coerce, Option.map_some']
    rw [hy]

/-- C4 (counterexample): a table whose single row holds a non-numeric
coal cell and a numeric oil cell is processed without any failure: the
non-coercible coal value is coerced to missing and its (year, sector)
record dropped, and the extraction returns the remaining record — the
claimed `DataFormatError` does not exist in the code. -/
theorem C4_extract_sector_long_counterexample :
    extract_sector_long
        [WideRow.mk 2020 Cell.nonNumeric (Cell.num 5) Cell.null Cell.null
          Cell.null Cell.null] =
      [SectorRow.mk 2020 Sector.oil 5] := by
  simp [extract_sector_long, sector_cell, to_numeric_coerce, sortTable,
    List.insertionSort, List.orderedInsert]

/-- C5 (amended): a sector-year whose year has no matching total in
the totals-by-year input does not make `compute_sector_shares` fail:
the left merge pairs it with a missing total and its share is the
missing sentinel — the claimed `JoinError` does not exist in the code. -/
theorem C5_shares_missing_total (sl : List SectorRow)
    (tbl : List (ℤ × Option ℝ)) (r : ShareRow)
    (hr : r ∈ compute_sector_shares sl tbl)
    (hmiss : ∀ p ∈ tbl, p.1 ≠ r.year) :
    r.share_of_total = none := by
  unfold compute_sector_shares at hr
  rw [mem_sortTable, List.mem_map] at hr
  obtain ⟨rt, hrt, rfl⟩ := hr
  obtain ⟨h1, h2⟩ := merge_left_year_mem sl (fun r => r.year) tbl rt hrt
  rcases h2 with ⟨h2, _⟩ | ⟨p, hp, hpy, hp2⟩
  · dsimp only
    rw [h2]
    rfl
  · exact absurd hpy (hmiss p hp)

/-- C5 (counterexample): with a single (2005, Coal) record and a
totals table carrying only year 2004, the share computation returns a
row with a missing share instead of failing. -/
theorem C5_shares_counterexample :
    compute_sector_shares [SectorRow.mk 2005 Sector.coal 10]
        [((2004 : ℤ), some (100 : ℝ))] =
      [ShareRow.mk 2005 Sector.coal none] := by
  simp [compute_sector_shares, merge_left_year, safe_divide, sortTable,
    List.insertionSort, List.orderedInsert]

theorem C5_shares_missing_total_witness :
    ShareRow.mk 2005 Sector.coal none ∈
      compute_sector_shares [SectorRow.mk 2005 Sector.coal 10]
        [((2004 : ℤ), some (100 : ℝ))] ∧
    (ShareRow.mk 2005 Sector.coal none).share_of_total = none := by
  have hmem : ShareRow.mk 2005 Sector.coal none ∈
      compute_sector_shares [SectorRow.mk 2005 Sector.coal 10]
        [((2004 : ℤ), some (100 : ℝ))] := by
    rw [C5_shares_counterexample]
    exact List.mem_cons_self _ _
  exact ⟨hmem, C5_shares_missing_total _ _ _ hmem (by norm_num)⟩

/-- C6: in `compute_contribution_to_total_change`, every output row
whose year is present in the total-change table with a total delta of
exactly 0 has a missing `contribution_share` (never 0 and never an
infinity — the safe division returns the missing default), even when
the sector's own delta is nonzero. -/
theorem C6_flat_year_contribution (sector_yoy : List YoyRow)
    (total_yoy : List (ℤ × Option ℝ)) (c : ContributionRow)
    (hc : c ∈ compute_contribution_to_total_change sector_yoy total_yoy)
    (hpresent : ∃ p ∈ total_yoy, p.1 = c.year)
    (hflat : ∀ p ∈ total_yoy, p.1 = c.year → p.2 = some 0) :
    c.contribution_share = none := by
  unfold compute_contribution_to_total_change at hc
  rw [mem_sortTable, List.mem_map] at hc
  obtain ⟨rt, hrt, rfl⟩ := hc
  obtain ⟨h1, h2⟩ := merge_left_year_mem sector_yoy (fun r => r.year)
    total_yoy rt hrt
  rcases h2 with ⟨h2, hnone⟩ | ⟨p, hp, hpy, hp2⟩
  · obtain ⟨p, hp, hpy⟩ := hpresent
    exact absurd hpy (hnone p hp)
  · have hz : p.2 = some 0 := hflat p hp hpy
    dsimp only
    rw [hp2, hz]
    cases hy : rt.1.yoy_change_mtco2 <;> simp [safe_divide, Option.join]

theorem C6_flat_year_contribution_witness :
    ContributionRow.mk 2010 Sector.coal (some 50) none ∈
      compute_contribution_to_total_change
        [YoyRow.mk 2010 Sector.coal 100 (some 50) (some 1)]
        [((2010 : ℤ), some (0 : ℝ))] ∧
    (ContributionRow.mk 2010 Sector.coal (some 50) none).contribution_share =
      none := by
  have hmem : ContributionRow.mk 2010 Sector.coal (some 50) none ∈
      compute_contribution_to_total_change
        [YoyRow.mk 2010 Sector.coal 100 (some 50) (some 1)]
        [((2010 : ℤ), some (0 : ℝ))] := by
    simp [compute_contribution_to_total_change, merge_left_year, safe_divide,
      sortTable, List.insertionSort, List.orderedInsert]
  refine ⟨hmem, C6_flat_year_contribution _ _ _ hmem ?_ ?_⟩
  · exact ⟨((2010 : ℤ), some (0 : ℝ)), by simp, rfl⟩
  · intro p hp hpy
    rcases List.mem_singleton.mp hp with rfl
    rfl

theorem sum_take_drop :
    ∀ (s : List ℝ) (lo k : ℕ), lo + k ≤ s.length →
      ((s.drop lo).take k).sum = ∑ j ∈ Finset.range k, s.getD (lo + j) 0
  | [], lo, k, h => by
    have hk : k = 0 := by
      simp at h
      omega
    subst hk
    simp
  | a :: t, 0, 0, _ => by simp
  | a :: t, 0, k + 1, h => by
    simp only [List.drop_zero, List.take_succ_cons, List.sum_cons]
    have ht := sum_take_drop t 0 k (by simpa using h)
    simp only [List.drop_zero] at ht
    rw [ht, Finset.sum_range_succ']
    simp [List.getD_cons_zero, List.getD_cons_succ]
    ring
  | a :: t, lo + 1, k, h => by
    simp only [List.drop_succ_cons]
    rw [sum_take_drop t lo k (by simp at h; omega)]
    refine Finset.sum_congr rfl (fun j _ => ?_)
    have : lo + 1 + j = (lo + j) + 1 := by omega
    rw [this, List.getD_cons_succ]

/-- C9: for every positive odd window, `smooth_timeseries` succeeds
and returns a series of the same length whose every position — the
first and last included — carries the arithmetic mean of the points
available in the clipped centered window; smoothing introduces no
missing values. -/
theorem C9_smoothing_edge (series : List ℝ) (window : ℤ)
    (hpos : 0 < window) (hodd : window % 2 = 1) :
    ∃ out : List ℝ, smooth_timeseries series window = Except.ok out ∧
      out.length = series.length ∧
      ∀ i, i < series.length →
        out[i]? = some (spec_centered_window_mean series
          ((window.toNat - 1) / 2) i) := by
  by_cases hw1 : window ≤ 1
  · have hw : window = 1 := le_antisymm hw1 hpos
    subst hw
    refine ⟨series, by rw [smooth_timeseries, if_pos le_rfl], rfl, ?_⟩
    intro i hi
    have hhalf : ((1 : ℤ).toNat - 1) / 2 = 0 := rfl
    rw [hhalf]
    unfold spec_centered_window_mean
    have hmin : min (series.length - 1) (i + 0) = i := by omega
    rw [Nat.sub_zero, hmin, Finset.Icc_self, Finset.sum_singleton,
      Finset.card_singleton]
    rw [List.getElem?_eq_getElem hi]
    have hgd : series.getD i 0 = series.get ⟨i, hi⟩ := by
      rw [List.getD_eq_getElem?_getD, List.getElem?_eq_getElem hi]
      rfl
    rw [hgd]
    norm_num
  · push_neg at hw1
    have hnodd : ¬ window % 2 = 0 := by omega
    refine ⟨_, by rw [smooth_timeseries, if_neg (not_le.mpr hw1), if_neg hnodd],
      by simp, ?_⟩
    intro i hi
    rw [List.getElem?_map, List.getElem?_range hi, Option.map_some']
    congr 1
    show ((series.drop (i - (window.toNat - 1) / 2)).take
        (min (series.length - 1) (i + (window.toNat - 1) / 2) + 1 -
          (i - (window.toNat - 1) / 2))).sum /
        ((min (series.length - 1) (i + (window.toNat - 1) / 2) + 1 -
          (i - (window.toNat - 1) / 2) : ℕ) : ℝ) = _
    set half := (window.toNat - 1) / 2 with hhalf
    set lo := i - half with hlo
    set hi2 := min (series.length - 1) (i + half) with hhi2
    have hb : lo + (hi2 + 1 - lo) ≤ series.length := by omega
    unfold spec_centered_window_mean
    rw [sum_take_drop series lo (hi2 + 1 - lo) hb]
    rw [← Nat.Ico_succ_right, Finset.sum_Ico_eq_sum_range, Nat.card_Ico]

theorem C9_smoothing_edge_witness :
    ∃ out : List ℝ,
      smooth_timeseries [1, 2, 3, 4, 5, 6, 7] 5 = Except.ok out ∧
      out.length = ([1, 2, 3, 4, 5, 6, 7] : List ℝ).length ∧
      ∀ i, i < ([1, 2, 3, 4, 5, 6, 7] : List ℝ).length →
        out[i]? = some (spec_centered_window_mean [1, 2, 3, 4, 5, 6, 7]
          (((5 : ℤ).toNat - 1) / 2) i) :=
  C9_smoothing_edge [1, 2, 3, 4, 5, 6, 7] 5 (by norm_num) (by norm_num)

theorem sectorRank_inj : ∀ a b : Sector, sectorRank a = sectorRank b → a = b := by
  intro a b
  cases a <;> cases b <;> simp [sectorRank]

/-- Two members of a list with pairwise-distinct (year, sector) keys
that agree on the key are the same record. -/
theorem eq_of_keysNodup :
    ∀ (l : List SectorRow),
      (l.map (fun r => (r.year, r.sector))).Nodup →
      ∀ x ∈ l, ∀ y ∈ l, x.year = y.year → x.sector = y.sector → x = y
  | [], _, x, hx, _, _, _, _ => absurd hx (List.not_mem_nil x)
  | a :: t, hnd, x, hx, y, hy, hyy, hss => by
    rw [List.map_cons, List.nodup_cons] at hnd
    rcases List.mem_cons.mp hx with hx1 | hx1
    · rcases List.mem_cons.mp hy with hy1 | hy1
      · rw [hx1, hy1]
      · subst hx1
        refine absurd (List.mem_map.mpr ⟨y, hy1, ?_⟩) hnd.1
        simp [hyy, hss]
    · rcases List.mem_cons.mp hy with hy1 | hy1
      · subst hy1
        refine absurd (List.mem_map.mpr ⟨x, hx1, ?_⟩) hnd.1
        simp [hyy, hss]
      · exact eq_of_keysNodup t hnd.2 x hx1 y hy1 hyy hss

theorem keys_disjoint {l1 l2 : List SectorRow}
    (hnd : ((l1 ++ l2).map (fun r => (r.year, r.sector))).Nodup)
    {p q : SectorRow} (hp : p ∈ l1) (hq : q ∈ l2) :
    ¬ (p.year = q.year ∧ p.sector = q.sector) := by
  rintro ⟨h1, h2⟩
  rw [List.map_append] at hnd
  have hdisj := List.disjoint_of_nodup_append hnd
  exact hdisj (List.mem_map.mpr ⟨p, hp, rfl⟩)
    (List.mem_map.mpr ⟨q, hq, by rw [← h1, ← h2]⟩)

theorem bySectorYear_dest {a b : SectorRow}
    (h : lexLE (fun r : SectorRow => sectorRank r.sector) (fun r => r.year) a b) :
    sectorRank a.sector < sectorRank b.sector ∨
      (a.sector = b.sector ∧ a.year ≤ b.year) := by
  rcases h with h | ⟨h1, h2⟩
  · exact Or.inl h
  · exact Or.inr ⟨sectorRank_inj _ _ h1, h2⟩

/-- Core invariant of the grouped-difference pass: over a
(sector, year)-sorted table with pairwise-distinct keys, where `prev`
is the last already-consumed row (an upper bound of `done`), every
produced row of a sector's earliest year carries a missing difference,
and every other produced row carries the difference with the
same-sector row of greatest smaller year. -/
theorem yoy_pass_spec :
    ∀ (l done : List SectorRow) (prev : Option SectorRow),
      List.Pairwise
        (lexLE (fun r : SectorRow => sectorRank r.sector) (fun r => r.year))
        (done ++ l) →
      ((done ++ l).map (fun r => (r.year, r.sector))).Nodup →
      ((prev = none ∧ done = []) ∨
        (∃ p, prev = some p ∧ p ∈ done ∧ ∀ z ∈ done,
          lexLE (fun r : SectorRow => sectorRank r.sector) (fun r => r.year) z p)) →
      ∀ r ∈ yoy_diff_pass prev l,
        ((∀ x ∈ done ++ l, x.sector = r.sector → r.year ≤ x.year) →
          r.yoy_change_mtco2 = none) ∧
        (∀ q ∈ done ++ l, q.sector = r.sector → q.year < r.year →
          (∀ x ∈ done ++ l, x.sector = r.sector → x.year < r.year →
            x.year ≤ q.year) →
          r.yoy_change_mtco2 = some (r.emissions_mtco2 - q.emissions_mtco2))
  | [], _, _, _, _, _ => by
    intro r hr
    exact absurd hr (List.not_mem_nil r)
  | x :: xs, done, prev, hsort, hnd, hprev => by
    intro r hr
    have hpair := (List.pairwise_append.mp hsort)
    rcases List.mem_cons.mp hr with rfl | hr
    · -- r is the row produced for x
      constructor
      · -- earliest year of its sector: the difference is missing
        intro hearliest
        dsimp only
        rcases hprev with ⟨rfl, rfl⟩ | ⟨p, rfl, hpdone, hpmax⟩
        · rfl
        · dsimp only
          by_cases hsec : p.sector = x.sector
          · exfalso
            have hle1 : x.year ≤ p.year :=
              hearliest p (List.mem_append.mpr (Or.inl hpdone)) hsec
            have hpx := hpair.2.2 p hpdone x (List.mem_cons_self x xs)
            rcases bySectorYear_dest hpx with hlt | ⟨_, hle2⟩
            · rw [hsec] at hlt
              exact lt_irrefl _ hlt
            · exact keys_disjoint hnd hpdone (List.mem_cons_self x xs)
                ⟨le_antisymm hle2 hle1, hsec⟩
          · rw [if_neg hsec]
      · -- otherwise: difference with the closest earlier same-sector row
        intro q hq hqsec hqlt hqmax
        dsimp only at hqsec hqlt hqmax ⊢
        have hqdone : q ∈ done := by
          rcases List.mem_append.mp hq with hq | hq
          · exact hq
          · rcases List.mem_cons.mp hq with rfl | hq
            · exact absurd hqlt (lt_irrefl _)
            · exfalso
              have hxq := (List.pairwise_cons.mp hpair.2.1).1 q hq
              rcases bySectorYear_dest hxq with hlt | ⟨_, hle⟩
              · rw [hqsec] at hlt
                exact lt_irrefl _ hlt
              · exact absurd hqlt (not_lt.mpr hle)
        have hdone_ne : done ≠ [] := by
          intro h
          rw [h] at hqdone
          exact List.not_mem_nil q hqdone
        rcases hprev with ⟨rfl, rfl⟩ | ⟨p, rfl, hpdone, hpmax⟩
        · exact absurd rfl hdone_ne
        · dsimp only
          have hpx := hpair.2.2 p hpdone x (List.mem_cons_self x xs)
          have hsec : p.sector = x.sector := by
            by_contra hne
            have hqp := hpmax q hqdone
            rcases bySectorYear_dest hpx with hlt | ⟨heq, _⟩
            · rcases bySectorYear_dest hqp with hlt2 | ⟨heq2, _⟩
              · rw [hqsec] at hlt2
                exact absurd (hlt2.trans hlt) (lt_irrefl _)
              · exact hne (heq2 ▸ hqsec)
            · exact hne heq
          rw [if_pos hsec]
          have hpxlt : p.year < x.year := by
            rcases bySectorYear_dest hpx with hlt | ⟨_, hle⟩
            · rw [hsec] at hlt
              exact absurd hlt (lt_irrefl _)
            · rcases lt_or_eq_of_le hle with hlt | heq
              · exact hlt
              · exact absurd ⟨heq, hsec⟩
                  (keys_disjoint hnd hpdone (List.mem_cons_self x xs))
          have hple : p.year ≤ q.year :=
            hqmax p (List.mem_append.mpr (Or.inl hpdone)) hsec hpxlt
          have hqle : q.year ≤ p.year := by
            have hqp := hpmax q hqdone
            rcases bySectorYear_dest hqp with hlt | ⟨_, hle⟩
            · rw [hqsec, ← hsec] at hlt
              exact absurd hlt (lt_irrefl _)
            · exact hle
          have hqp : q = p := by
            have hndl : (done.map (fun r => (r.year, r.sector))).Nodup := by
              rw [List.map_append] at hnd
              exact (List.Nodup.of_append_left hnd)
            exact eq_of_keysNodup done hndl q hqdone p hpdone
              (le_antisymm hqle hple) (by rw [hqsec, hsec])
          rw [hqp]
    · -- r is produced further down the pass: apply the invariant to the tail
      have hshift : done ++ x :: xs = (done ++ [x]) ++ xs := by
        simp
      rw [hshift] at hsort hnd
      have hprev' : (some x = none ∧ done ++ [x] = []) ∨
          (∃ p, some x = some p ∧ p ∈ done ++ [x] ∧ ∀ z ∈ done ++ [x],
            lexLE (fun r : SectorRow => sectorRank r.sector) (fun r => r.year) z p) := by
        refine Or.inr ⟨x, rfl, List.mem_append.mpr (Or.inr (List.mem_singleton.mpr rfl)), ?_⟩
        intro z hz
        rcases List.mem_append.mp hz with hz | hz
        · exact hpair.2.2 z hz x (List.mem_cons_self x xs)
        · rcases List.mem_singleton.mp hz with rfl
          exact Or.inr ⟨rfl, le_refl _⟩
      have hres := yoy_pass_spec xs (done ++ [x]) (some x) hsort hnd hprev' r hr
      rw [← hshift] at hres
      exact hres

/-- C8: in `compute_yoy_changes` over a table with unique
(year, sector) keys, a row of some sector's earliest present year has
a missing `yoy_change_mtco2` (the missing sentinel, not zero), and
every other row's `yoy_change_mtco2` equals its value minus the value
of the same sector's closest previous record by year — its predecessor
in the sector's own year-sorted series, not the record at calendar
year − 1. -/
theorem C8_yoy_boundary (sector_long : List SectorRow)
    (hkeys : (sector_long.map (fun r => (r.year, r.sector))).Nodup)
    (r : YoyRow) (hr : r ∈ compute_yoy_changes sector_long) :
    ((∀ x ∈ sector_long, x.sector = r.sector → r.year ≤ x.year) →
      r.yoy_change_mtco2 = none) ∧
    (∀ q ∈ sector_long, q.sector = r.sector → q.year < r.year →
      (∀ x ∈ sector_long, x.sector = r.sector → x.year < r.year →
        x.year ≤ q.year) →
      r.yoy_change_mtco2 = some (r.emissions_mtco2 - q.emissions_mtco2)) := by
  unfold compute_yoy_changes at hr
  rw [mem_sortTable] at hr
  set s := sortTable (fun r : SectorRow => sectorRank r.sector) (fun r => r.year)
    sector_long with hs
  have hperm : List.Perm s sector_long :=
    sortTable_perm (fun r : SectorRow => sectorRank r.sector) (fun r => r.year)
      sector_long
  have hsorted : List.Pairwise
      (lexLE (fun r : SectorRow => sectorRank r.sector) (fun r => r.year)) s :=
    sortTable_pairwise (fun r : SectorRow => sectorRank r.sector)
      (fun r => r.year) sector_long
  have hndS : (s.map (fun r => (r.year, r.sector))).Nodup :=
    ((hperm.map (fun r => (r.year, r.sector))).nodup_iff).mpr hkeys
  have hspec := yoy_pass_spec s [] none hsorted hndS (Or.inl ⟨rfl, rfl⟩) r hr
  constructor
  · intro h
    exact hspec.1 (fun x hx => h x (hperm.mem_iff.mp hx))
  · intro q hq hqs hqlt hqmax
    exact hspec.2 q (hperm.mem_iff.mpr hq) hqs hqlt
      (fun x hx hxs hxlt => hqmax x (hperm.mem_iff.mp hx) hxs hxlt)

theorem C8_yoy_boundary_witness :
    YoyRow.mk 2001 Sector.coal 12 (some 2) (some 0.2) ∈
      compute_yoy_changes [⟨2000, Sector.coal, 10⟩, ⟨2001, Sector.coal, 12⟩] ∧
    (YoyRow.mk 2001 Sector.coal 12 (some 2) (some (0.2 : ℝ))).yoy_change_mtco2 =
      some ((YoyRow.mk 2001 Sector.coal 12 (some 2)
          (some (0.2 : ℝ))).emissions_mtco2 -
        (SectorRow.mk 2000 Sector.coal 10).emissions_mtco2) := by
  have hmem : YoyRow.mk 2001 Sector.coal 12 (some 2) (some 0.2) ∈
      compute_yoy_changes [⟨2000, Sector.coal, 10⟩, ⟨2001, Sector.coal, 12⟩] := by
    norm_num [compute_yoy_changes, yoy_diff_pass, safe_divide, sortTable,
      List.insertionSort, List.orderedInsert, lexLE, sectorRank,
      YoyRow.mk.injEq]
  refine ⟨hmem, ?_⟩
  have h := (C8_yoy_boundary [⟨2000, Sector.coal, 10⟩, ⟨2001, Sector.coal, 12⟩]
    (by simp) _ hmem).2 ⟨2000, Sector.coal, 10⟩ (by simp) rfl (by norm_num) ?_
  · exact h
  · intro x hx hxs hxlt
    rcases List.mem_cons.mp hx with rfl | hx
    · norm_num
    · rcases List.mem_singleton.mp hx with rfl
      norm_num at hxlt

end Emissions
